import Mathlib

/-!
Verification of the filmalize transcode-planning and progress-supervision
core (`src/filmalize/models.py` together with the batch polling loop of
`src/filmalize/cli.py`).

Modelling conventions:

* Numbers that feed planning decisions (CRF values, bitrates, durations,
  microsecond counts) are modelled as `Int`.  The code only tests them for
  zero/nonzero truthiness, compares them, and formats them into strings;
  no settled claim depends on fractional values.
* Python truthiness of an optional number (`x if x else y`) is modelled by
  `pyOr` / `pyTruthy`: both `None` and `0` are falsy.
* The module `filmalize.defaults` is configuration (codec names, default
  CRF, default bitrate, preset, output extension, tool names); it is
  modelled as the explicit record `Defaults` threaded through the
  functions, as the specification's design notes prescribe.
* The transient per-run attributes of a `Container` (`process`,
  `temp_file`) are modelled by the separate state `RunState`; the class
  itself lists them in `equality_ignore`, and no durable computation reads
  them.  The contents of the progress side-channel file are modelled as a
  `List Char`.
* Display-only metadata (`ContainerLabel`, and the fields of `StreamLabel`
  other than `bitrate`) is never read by any planning or supervision
  logic, and is omitted.  `StreamLabel.bitrate` is kept because the audio
  branch of `Stream.build_options` reads it.
-/

namespace Filmalize

/-- Global configuration from `filmalize/defaults.py` (module not included in
the sources; per the spec it is a record of codec names, default CRF,
default bitrate, preset and output extension). -/
structure Defaults where
  FFMPEG : String
  C_VIDEO : String
  C_AUDIO : String
  C_SUBS : String
  CRF : Int
  PRESET : String
  BITRATE : Int
  ENDING : String
deriving DecidableEq, Repr

/-- Python truthiness of an optional number: `None` and `0` are falsy. -/
def pyTruthy : Option Int → Bool
  | none => false
  | some v => v != 0

/-- Value of the Python expression `x if x else dflt` for an optional
number `x`. -/
def pyOr (x : Option Int) (dflt : Int) : Int :=
  match x with
  | none => dflt
  | some v => if v = 0 then dflt else v

/-- Constructor-argument normalization `arg if arg else None` used by
`Stream.__init__` for `custom_crf` and `custom_bitrate`. -/
def pyNorm : Option Int → Option Int
  | none => none
  | some v => if v = 0 then none else some v

/-- Labels attached to a stream (`StreamLabel` in `models.py`).  Only the
`bitrate` field is ever read by planning logic (audio transcode default);
the purely display fields are omitted.  `none` models the empty-string
placeholder `''`; note `''` and `0` are equally falsy in the code. -/
structure StreamLabel where
  bitrate : Option Int
deriving DecidableEq, Repr

/-- Multimedia stream (`Stream` in `models.py`). -/
structure Stream where
  index : Nat
  type : String
  codec : String
  custom_crf : Option Int
  custom_bitrate : Option Int
  labels : StreamLabel
  option_summary : Option String
deriving DecidableEq, Repr

/-- Embedding of `Stream.__init__`: stores the fields, normalizing falsy
custom values (`custom_crf if custom_crf else None`, likewise for
`custom_bitrate`), and initializes `option_summary` to `None`. -/
def Stream.make (index : Nat) (stream_type codec : String)
    (custom_crf custom_bitrate : Option Int) (labels : StreamLabel) : Stream :=
  { index := index
    type := stream_type
    codec := codec
    custom_crf := pyNorm custom_crf
    custom_bitrate := pyNorm custom_bitrate
    labels := labels
    option_summary := none }

/-- Embedding of `Stream.build_options(number)`.  Returns the emitted
option tokens together with the stream carrying the updated
`option_summary` (the Python method mutates `self.option_summary`).
Streams whose type is not audio/video/subtitle emit no tokens and leave
the summary untouched, exactly as in the source. -/
def Stream.build_options (d : Defaults) (s : Stream) (number : Nat) :
    List String × Stream :=
  let crf := pyOr s.custom_crf d.CRF
  let bitrate := pyOr s.custom_bitrate (pyOr s.labels.bitrate d.BITRATE)
  if s.type = "video" then
    if pyTruthy s.custom_crf || s.codec != d.C_VIDEO then
      (["-c:v:" ++ toString number, "libx264", "-preset", d.PRESET, "-crf", toString crf, "-pix_fmt", "yuv420p"],
        { s with option_summary := some ("transcode -> " ++ d.C_VIDEO ++ ", crf=" ++ toString crf) })
    else
      (["-c:v:" ++ toString number, "copy"], { s with option_summary := some "copy" })
  else if s.type = "audio" then
    if pyTruthy s.custom_bitrate || s.codec != d.C_AUDIO then
      (["-c:a:" ++ toString number, d.C_AUDIO, "-b:a:" ++ toString number, toString bitrate ++ "k"],
        { s with option_summary := some ("transcode -> " ++ d.C_AUDIO ++ ", bitrate=" ++ toString bitrate ++ "Kib/s") })
    else
      (["-c:a:" ++ toString number, "copy"], { s with option_summary := some "copy" })
  else if s.type = "subtitle" then
    if s.codec = d.C_SUBS then
      (["-c:s:" ++ toString number, "copy"], { s with option_summary := some "copy" })
    else
      (["-c:s:" ++ toString number, d.C_SUBS],
        { s with option_summary := some ("transcode -> " ++ d.C_SUBS) })
  else
    ([], s)

/-- Sample configuration used by concrete witnesses, matching the spec's
scenario defaults (target h264 video / aac audio). -/
def sampleDefaults : Defaults :=
  { FFMPEG := "ffmpeg", C_VIDEO := "h264", C_AUDIO := "aac",
    C_SUBS := "mov_text", CRF := 18, PRESET := "medium",
    BITRATE := 384, ENDING := ".mp4" }

/-- C8: for a video stream, `build_options` emits `copy` exactly when the
custom CRF is unset (falsy) and the source codec equals the configured
default target video codec; otherwise it emits the transcode options with
CRF equal to the custom CRF if set, else the configured default, with the
fixed preset and the fixed pixel format, and sets the option summary
accordingly. -/
theorem build_options_video_copy_iff (d : Defaults) (s : Stream) (n : Nat)
    (hv : s.type = "video") :
    ((Stream.build_options d s n).1 = ["-c:v:" ++ toString n, "copy"]
      ↔ (pyTruthy s.custom_crf = false ∧ s.codec = d.C_VIDEO))
    ∧ (pyTruthy s.custom_crf = false ∧ s.codec = d.C_VIDEO →
        (Stream.build_options d s n).2.option_summary = some "copy")
    ∧ (pyTruthy s.custom_crf = true ∨ s.codec ≠ d.C_VIDEO →
        (Stream.build_options d s n).1 =
          ["-c:v:" ++ toString n, "libx264", "-preset", d.PRESET,
           "-crf", toString (pyOr s.custom_crf d.CRF), "-pix_fmt", "yuv420p"]
        ∧ (Stream.build_options d s n).2.option_summary =
            some ("transcode -> " ++ d.C_VIDEO ++ ", crf="
              ++ toString (pyOr s.custom_crf d.CRF))) := by
  by_cases hcod : s.codec = d.C_VIDEO <;>
    cases htr : pyTruthy s.custom_crf <;>
      simp [Stream.build_options, hv, hcod, htr]

/-- Sample video stream for the C8 witness: codec already equals the
sample target codec, no custom CRF. -/
def videoCopySample : Stream :=
  Stream.make 0 "video" "h264" none none { bitrate := none }

/-- Witness for C8 at a concrete input: a plain h264 video stream with the
sample defaults is emitted as a copy. -/
theorem build_options_video_copy_iff_witness :
    (Stream.build_options sampleDefaults videoCopySample 0).1 = ["-c:v:0", "copy"] :=
  (build_options_video_copy_iff sampleDefaults videoCopySample 0 rfl).1.mpr
    (by constructor <;> rfl)

/-- C10: constructing a stream with `custom_crf = 0` or
`custom_bitrate = 0` normalizes the zero to unset, so the constructed
stream — and hence every `build_options` decision taken from it — is
identical to one constructed with no custom value at all. -/
theorem make_zero_custom_is_unset (i : Nat) (t c : String)
    (cc cb : Option Int) (lb : StreamLabel) (d : Defaults) (n : Nat) :
    Stream.make i t c (some 0) cb lb = Stream.make i t c none cb lb
    ∧ Stream.make i t c cc (some 0) lb = Stream.make i t c cc none lb
    ∧ Stream.build_options d (Stream.make i t c (some 0) cb lb) n
        = Stream.build_options d (Stream.make i t c none cb lb) n
    ∧ Stream.build_options d (Stream.make i t c cc (some 0) lb) n
        = Stream.build_options d (Stream.make i t c cc none lb) n :=
  ⟨rfl, rfl, rfl, rfl⟩

/-- External subtitle file (`SubtitleFile` in `models.py`).  The encoding
is taken as given: the chardet guess only runs when no encoding is passed,
and it reads the filesystem, which is outside the model; no claim touches
the guessing. -/
structure SubtitleFile where
  file_name : String
  encoding : String
  options : List String
  option_summary : String
deriving DecidableEq, Repr

/-- Embedding of `SubtitleFile.__init__` with an explicit encoding. -/
def SubtitleFile.make (d : Defaults) (file_name encoding : String) : SubtitleFile :=
  { file_name := file_name, encoding := encoding, options := [d.C_SUBS],
    option_summary := "transcode -> " ++ d.C_SUBS }

/-- Durable state of a multimedia container (`Container` in `models.py`).
The transient per-run attributes `temp_file` and `process` are modelled
separately by `RunState`; the class itself excludes them from equality via
`equality_ignore`, and no durable computation reads them.  The
display-only `labels` attribute (`ContainerLabel`) is never read by any
logic and is omitted. -/
structure Container where
  file_name : String
  duration : Int
  streams : List Stream
  subtitle_files : List SubtitleFile
  _selected : List Nat
  output_name : String
  microseconds : Int
deriving DecidableEq, Repr

/-- Characters of the base name of a POSIX path: everything after the last
slash. -/
def baseNameChars (cs : List Char) : List Char :=
  (cs.reverse.takeWhile (fun c => c != '/')).reverse

/-- Walk the reversed base name up to the first dot encountered (that is,
the last dot of the name); `none` when there is no dot, or the only dot is
the leading character of the name (dotfiles keep their full name as stem,
as with `pathlib`). -/
def stemDropRev : List Char → Option (List Char)
  | [] => none
  | c :: cs => if c = '.' then (if cs = [] then none else some cs) else stemDropRev cs

/-- Stem of a file base name (name without its final suffix), modelling
`pathlib.PurePath(...).stem` for ordinary file names. -/
def stemChars (base : List Char) : List Char :=
  match stemDropRev base.reverse with
  | none => base
  | some rest => rest.reverse

/-- Embedding of `Container.default_name`: the input file name's stem with
the configured output extension appended. -/
def default_name (d : Defaults) (file_name : String) : String :=
  String.mk (stemChars (baseNameChars file_name.toList)) ++ d.ENDING

/-- Lookup in `Container.streams_dict` (`{s.index: s for s in streams}`):
on duplicate indexes the later stream wins, hence the search over the
reversed list. -/
def streams_dict_find (streams : List Stream) (i : Nat) : Option Stream :=
  streams.reverse.find? (fun s => s.index == i)

/-- Loop body of `Container.default_streams`: pick the first audio stream
and the first video stream in stream order (note the `elif`: a stream can
fill at most one slot per iteration). -/
def default_streams_go : List Stream → Bool → Bool → List Nat
  | [], _, _ => []
  | s :: rest, audio, video =>
    if !audio && s.type == "audio" then s.index :: default_streams_go rest true video
    else if !video && s.type == "video" then s.index :: default_streams_go rest audio true
    else default_streams_go rest audio video

/-- Embedding of the `Container.default_streams` property. -/
def default_streams (streams : List Stream) : List Nat :=
  default_streams_go streams false false

/-- Stream types eligible for output, from the `selected` setter. -/
def outputTypes : List String := ["audio", "video", "subtitle"]

/-- Validation loop of the `selected` setter: returns the first error
message raised, or `none` when the whole list passes. -/
def checkSelection (streams : List Stream) : List Nat → Option String
  | [] => none
  | i :: rest =>
    match streams_dict_find streams i with
    | none => some ("This contaner does not contain a stream with index " ++ toString i)
    | some s =>
      if s.type ∈ outputTypes then checkSelection streams rest
      else some ("filmalize cannot output streams of type " ++ s.type)

/-- Embedding of the `selected` setter: validate every index, then store
the list sorted ascending (`sorted(index_list)`; Python's sorted is a
stable ascending sort, which on naturals agrees with insertion sort).  An
error result models the `ValueError` raised before any assignment. -/
def Container.setSelected (c : Container) (index_list : List Nat) : Except String Container :=
  match checkSelection c.streams index_list with
  | some e => .error e
  | none => .ok { c with _selected := index_list.insertionSort (· ≤ ·) }

/-- Observable container state after an assignment attempt to `selected`:
on `ValueError` the exception propagates and the object keeps its previous
`_selected`. -/
def applySelected (c : Container) (index_list : List Nat) : Container :=
  match c.setSelected index_list with
  | .ok c' => c'
  | .error _ => c

/-- Embedding of `Container.__init__`.  The `selected` argument goes
through the validating setter (so construction can fail); falsy arguments
(`None`, empty list, empty string) fall back to the documented defaults;
`microseconds` is computed once as `duration * 1000000`. -/
def Container.make (d : Defaults) (file_name : String) (duration : Int)
    (streams : List Stream) (subtitle_files : Option (List SubtitleFile))
    (selected : Option (List Nat)) (output_name : Option String) :
    Except String Container :=
  let oname := match output_name with
    | some s => if s = "" then default_name d file_name else s
    | none => default_name d file_name
  let chosen := match selected with
    | some l => if l = [] then default_streams streams else l
    | none => default_streams streams
  let c0 : Container :=
    { file_name := file_name, duration := duration, streams := streams,
      subtitle_files := subtitle_files.getD [], _selected := [],
      output_name := oname, microseconds := duration * 1000000 }
  c0.setSelected chosen

/-- Probe data for one stream, as consumed by `Stream.from_dict`:
`index`, `codec_type`, `codec_name`, and the numeric bitrate label that
`StreamLabel.from_dict` derives from `bit_rate` (the display-side unit
conversion and rounding of that derivation is not modelled; no claim
depends on it). -/
structure ProbeStream where
  index : Nat
  codec_type : String
  codec_name : Option String
  label_bitrate : Option Int
deriving DecidableEq, Repr

/-- Format section of a probe document: `format.filename` and the parsed
numeric `format.duration` (`none` models a missing duration tag;
`float(... .get('duration', 0))` turns it into `0`). -/
structure ProbeFormat where
  filename : String
  duration : Option Int
deriving DecidableEq, Repr

/-- Probe document (ffprobe JSON output shape). -/
structure ProbeDoc where
  format : ProbeFormat
  streams : List ProbeStream
deriving DecidableEq, Repr

/-- Embedding of `Stream.from_dict`. -/
def Stream.from_dict (ps : ProbeStream) : Stream :=
  Stream.make ps.index ps.codec_type (ps.codec_name.getD "") none none
    { bitrate := ps.label_bitrate }

/-- Failure modes of `Container.from_dict`: the `ProbeError` raised when
the document has no usable duration, or a `ValueError` escaping from the
`selected` setter during `__init__`. -/
inductive FromDictErr where
  | probeError (file_name message : String)
  | valueError (message : String)
deriving DecidableEq, Repr

/-- Embedding of `Container.from_dict`: reject a missing or zero duration
with a `ProbeError`, then construct the container from the parsed
streams. -/
def Container.from_dict (d : Defaults) (info : ProbeDoc) : Except FromDictErr Container :=
  let file_name := info.format.filename
  let duration := info.format.duration.getD 0
  if duration = 0 then .error (.probeError file_name "File has no duration tag.")
  else
    match Container.make d file_name duration (info.streams.map Stream.from_dict)
        none none none with
    | .ok c => .ok c
    | .error e => .error (.valueError e)

/-- Validity of a selection assignment, as the claim states it: every
index names a stream of the container and that stream's type is
output-eligible. -/
def ValidSelection (streams : List Stream) (l : List Nat) : Prop :=
  ∀ i ∈ l, ∃ s, streams_dict_find streams i = some s ∧ s.type ∈ outputTypes

/-- Validation loop succeeds exactly on valid selections. -/
theorem checkSelection_none_iff (streams : List Stream) (l : List Nat) :
    checkSelection streams l = none ↔ ValidSelection streams l := by
  induction l with
  | nil => simp [checkSelection, ValidSelection]
  | cons i rest ih =>
    cases h : streams_dict_find streams i with
    | none =>
      simp only [checkSelection, h]
      constructor
      · intro hc; exact absurd hc (by simp)
      · intro hv
        obtain ⟨s, hs, _⟩ := hv i (List.mem_cons_self i rest)
        rw [h] at hs; exact absurd hs (by simp)
    | some s =>
      by_cases ht : s.type ∈ outputTypes
      · simp only [checkSelection, h, if_pos ht, ih]
        simp only [ValidSelection, List.mem_cons]
        constructor
        · intro hv j hj
          rcases hj with rfl | hj
          · exact ⟨s, h, ht⟩
          · exact hv j hj
        · intro hv j hj; exact hv j (Or.inr hj)
      · simp only [checkSelection, h, if_neg ht]
        constructor
        · intro hc; exact absurd hc (by simp)
        · intro hv
          obtain ⟨s', hs', ht'⟩ := hv i (List.mem_cons_self i rest)
          rw [h] at hs'
          cases hs'; exact absurd ht' ht

/-- C2: the `selected` setter is atomic.  On any invalid index or
ineligible type the assignment is rejected with an error and the observed
container state is unchanged; on a fully valid list the selection is
stored sorted ascending (a permutation of the assigned list), and every
other durable field is untouched. -/
theorem selected_setter_atomic (c : Container) (l : List Nat) :
    (¬ ValidSelection c.streams l →
      (∃ e, c.setSelected l = .error e) ∧ applySelected c l = c)
    ∧ (ValidSelection c.streams l →
      c.setSelected l = .ok (applySelected c l)
      ∧ (applySelected c l)._selected = l.insertionSort (· ≤ ·)
      ∧ List.Sorted (· ≤ ·) (applySelected c l)._selected
      ∧ (applySelected c l)._selected.Perm l
      ∧ (applySelected c l).file_name = c.file_name
      ∧ (applySelected c l).duration = c.duration
      ∧ (applySelected c l).streams = c.streams
      ∧ (applySelected c l).subtitle_files = c.subtitle_files
      ∧ (applySelected c l).output_name = c.output_name
      ∧ (applySelected c l).microseconds = c.microseconds) := by
  constructor
  · intro hv
    rw [← checkSelection_none_iff] at hv
    cases h : checkSelection c.streams l with
    | none => exact absurd h hv
    | some e =>
      refine ⟨⟨e, ?_⟩, ?_⟩
      · simp [Container.setSelected, h]
      · simp [applySelected, Container.setSelected, h]
  · intro hv
    rw [← checkSelection_none_iff] at hv
    refine ⟨?_, ?_, ?_, ?_, ?_, ?_, ?_, ?_, ?_, ?_⟩ <;>
      simp [applySelected, Container.setSelected, hv, List.sorted_insertionSort,
        List.perm_insertionSort]

/-- Concrete container for the C2 witness: a video stream at index 0 and
an audio stream at index 1, both selected. -/
def sampleContainer : Container :=
  { file_name := "movie.mkv", duration := 120,
    streams :=
      [Stream.make 0 "video" "h264" none none { bitrate := none },
       Stream.make 1 "audio" "aac" none none { bitrate := some 128 }],
    subtitle_files := [], _selected := [0, 1],
    output_name := "movie.mp4", microseconds := 120000000 }

/-- Witness for C2 at concrete inputs: assigning `[5]` (no stream has
index 5) is rejected and leaves the container unchanged, and assigning
`[1, 0]` succeeds and stores `[0, 1]`. -/
theorem selected_setter_atomic_witness :
    ((∃ e, sampleContainer.setSelected [5] = .error e)
      ∧ applySelected sampleContainer [5] = sampleContainer)
    ∧ (applySelected sampleContainer [1, 0])._selected = [0, 1] := by
  constructor
  · refine (selected_setter_atomic sampleContainer [5]).1 ?_
    intro hv
    obtain ⟨s, hs, _⟩ := hv 5 (by decide)
    rw [show streams_dict_find sampleContainer.streams 5 = none from rfl] at hs
    exact Option.noConfusion hs
  · have h := (selected_setter_atomic sampleContainer [1, 0]).2 ?_
    · exact h.2.1.trans (by decide)
    · intro i hi
      fin_cases hi
      · exact ⟨Stream.make 1 "audio" "aac" none none { bitrate := some 128 },
          by decide, by decide⟩
      · exact ⟨Stream.make 0 "video" "h264" none none { bitrate := none },
          by decide, by decide⟩

/-- Successful construction fixes the duration field: `__init__` stores
the argument unchanged, and the setter call does not touch it. -/
theorem make_ok_duration (d : Defaults) (fn : String) (dur : Int)
    (ss : List Stream) (sf : Option (List SubtitleFile))
    (sel : Option (List Nat)) (out_name : Option String) (c : Container)
    (h : Container.make d fn dur ss sf sel out_name = .ok c) : c.duration = dur := by
  unfold Container.make Container.setSelected at h
  dsimp only at h
  split at h
  · exact absurd h (by simp)
  · cases h; rfl

/-- Concrete probe document with a negative duration for the C7
counterexample. -/
def negDurationDoc : ProbeDoc :=
  { format := { filename := "clip.mkv", duration := some (-3) }, streams := [] }

/-- Counterexample for C7 as stated: a probe document whose duration is
the nonzero value `-3` is accepted (`float('-3')` is truthy), producing a
container whose duration is not positive. -/
theorem from_dict_accepts_negative_duration :
    (Container.from_dict sampleDefaults negDurationDoc).toOption.map Container.duration
      = some (-3)
    ∧ ¬ ((-3 : Int) > 0) := by decide

/-- C7 amended: `from_dict` fails with the `ProbeError` exactly on a
missing or zero duration, and every container it successfully builds has
the document's nonzero — though possibly negative — duration.  Direct
`__init__` construction performs no duration validation at all. -/
theorem from_dict_duration_guard (d : Defaults) (info : ProbeDoc) :
    (info.format.duration.getD 0 = 0 →
      Container.from_dict d info =
        .error (.probeError info.format.filename "File has no duration tag."))
    ∧ (∀ c, Container.from_dict d info = .ok c →
        c.duration = info.format.duration.getD 0 ∧ c.duration ≠ 0) := by
  constructor
  · intro h
    simp [Container.from_dict, h]
  · intro c hc
    unfold Container.from_dict at hc
    by_cases h : info.format.duration.getD 0 = 0
    · rw [if_pos h] at hc; exact absurd hc (by simp)
    · rw [if_neg h] at hc
      cases hm : Container.make d info.format.filename (info.format.duration.getD 0)
          (info.streams.map Stream.from_dict) none none none with
      | ok c' =>
        rw [hm] at hc
        cases hc
        have hd := make_ok_duration _ _ _ _ _ _ _ _ hm
        exact ⟨hd, by rw [hd]; exact h⟩
      | error e => rw [hm] at hc; exact absurd hc (by simp)

/-- Concrete probe document with duration zero for the C7 witness. -/
def zeroDurationDoc : ProbeDoc :=
  { format := { filename := "zero.mkv", duration := some 0 }, streams := [] }

/-- Witness for C7 (amended) at a concrete input: a zero duration is
rejected with the `ProbeError`. -/
theorem from_dict_duration_guard_witness :
    Container.from_dict sampleDefaults zeroDurationDoc
      = .error (.probeError "zero.mkv" "File has no duration tag.") :=
  (from_dict_duration_guard sampleDefaults zeroDurationDoc).1 rfl

/-- State of the transcode subprocess handle: `notStarted` models
`self.process is None`, `running` models `poll() is None`, and `exited`
models `poll()` returning an exit code. -/
inductive ProcState where
  | notStarted
  | running
  | exited (code : Int)
deriving DecidableEq, Repr

/-- Transient per-run state of a container: the subprocess handle and the
contents of the temp file ffmpeg streams `key=value` progress lines into.
These are exactly the attributes `Container.equality_ignore` excludes. -/
structure RunState where
  process : ProcState
  report : List Char
deriving DecidableEq, Repr

/-- Exceptions the `progress` property can raise: the
`ProgressFinishedError` (a bare signal — the raise site passes it no
arguments, so it carries no per-job data), or a crash
(`IndexError`/`ValueError`) from parsing a malformed report line. -/
inductive PExc where
  | finished
  | crash
deriving DecidableEq, Repr

deriving instance DecidableEq for Except

/-- Trailing window of at most `n` bytes, modelling
`seek(-512, SEEK_END)` with the `seek(0)` fallback for short files. -/
def tailChars (n : Nat) (cs : List Char) : List Char :=
  cs.drop (cs.length - n)

/-- Accumulator loop for splitting a character list at a separator. -/
def splitOnCharGo (sep : Char) : List Char → List Char → List (List Char)
  | acc, [] => [acc.reverse]
  | acc, c :: cs =>
    if c = sep then acc.reverse :: splitOnCharGo sep [] cs
    else splitOnCharGo sep (c :: acc) cs

/-- Split a character list at every occurrence of `sep`.  Applied to a
window with `'\n'` this models `readlines` followed by
`strip(os.linesep)` on each line (when the window ends in a newline an
extra empty tail element appears; it matches no key, so the backward scan
is unaffected). -/
def splitOnChar (sep : Char) (cs : List Char) : List (List Char) :=
  splitOnCharGo sep [] cs

/-- Lines visible in the 512-byte trailing window of the report. -/
def windowLines (report : List Char) : List (List Char) :=
  splitOnChar '\n' (tailChars 512 report)

/-- Decimal digit accumulator for `pyInt?`. -/
def digitsToNatGo (acc : Nat) : List Char → Option Nat
  | [] => some acc
  | c :: cs =>
    if c.isDigit then digitsToNatGo (acc * 10 + (c.toNat - '0'.toNat)) cs
    else none

/-- Python `int()` on the strings at issue: an optional minus sign then a
nonempty run of decimal digits (`None` models the `ValueError`; exotic
acceptances such as underscores or surrounding whitespace are not
modelled — no report line at issue uses them). -/
def pyInt? : List Char → Option Int
  | [] => none
  | '-' :: rest =>
    match rest with
    | [] => none
    | _ => (digitsToNatGo 0 rest).map (fun n => -(n : Int))
  | cs => (digitsToNatGo 0 cs).map (fun n => (n : Int))

/-- Character list of the only semantically used report key. -/
def outKey : List Char := "out_time_ms".toList

/-- Part of a report line before the first `=`, that is
`line.split('=')[0]`. -/
def keyOf (l : List Char) : List Char :=
  (splitOnChar '=' l).headD []

/-- Value extraction `int(line.split('=')[1])` for a line already known to
match the key: `crash` models the `IndexError` when the line has no `=`
and the `ValueError` when the value is not an integer. -/
def lineValE (l : List Char) : Except PExc Int :=
  match ((splitOnChar '=' l).drop 1).head? with
  | none => .error .crash
  | some v =>
    match pyInt? v with
    | some n => .ok n
    | none => .error .crash

/-- Backward scan of the window: the argument is the reversed line list;
the first line whose key is `out_time_ms` supplies the value, and the scan
returns 0 when no line matches. -/
def scanBack : List (List Char) → Except PExc Int
  | [] => .ok 0
  | l :: rest => if keyOf l = outKey then lineValE l else scanBack rest

/-- Progress value parsed from the report file contents. -/
def reportValue (report : List Char) : Except PExc Int :=
  scanBack (windowLines report).reverse

/-- Embedding of the `Container.progress` property: 0 before the process
is started, the `ProgressFinishedError` whenever the process has exited,
and otherwise the last `out_time_ms` value visible in the trailing window
of the report. -/
def progress (st : RunState) : Except PExc Int :=
  match st.process with
  | .notStarted => .ok 0
  | .exited _ => .error .finished
  | .running => reportValue st.report

/-- Progress query together with the state it leaves behind: the property
performs no state transition whatsoever (only the file cursor moves, and
the next query re-seeks it). -/
def progressQ (st : RunState) : Except PExc Int × RunState :=
  (progress st, st)

/-- Lines of a window whose key is `out_time_ms`. -/
def outTimeLines (lines : List (List Char)) : List (List Char) :=
  lines.filter (fun l => keyOf l == outKey)

/-- Parsed value of a report line, `none` when absent or malformed. -/
def lineValue? (l : List Char) : Option Int :=
  match ((splitOnChar '=' l).drop 1).head? with
  | none => none
  | some v => pyInt? v

/-- Parsed `out_time_ms` values appearing in a list of lines, in order. -/
def outEntries (lines : List (List Char)) : List Int :=
  (outTimeLines lines).filterMap lineValue?

/-- Claim-side reading of the query: the value of the last `out_time_ms`
line of the window, or 0 when the window has none. -/
def lastOutSpec (lines : List (List Char)) : Except PExc Int :=
  match (outTimeLines lines).getLast? with
  | none => .ok 0
  | some l => lineValE l

/-- Finding the first match equals taking the head of the filtered list. -/
theorem find_eq_filter_head {α : Type} (p : α → Bool) :
    ∀ l : List α, l.find? p = (l.filter p).head?
  | [] => rfl
  | a :: l => by
    cases h : p a
    · rw [List.find?_cons_of_neg _ (by simp [h]), List.filter_cons_of_neg (by simp [h]),
        find_eq_filter_head p l]
    · rw [List.find?_cons_of_pos _ (by simp [h]), List.filter_cons_of_pos (by simp [h]),
        List.head?_cons]

/-- Unfolding of the backward scan through `find?`. -/
theorem scanBack_eq_find (ls : List (List Char)) :
    scanBack ls =
      match ls.find? (fun l => keyOf l == outKey) with
      | none => .ok 0
      | some l => lineValE l := by
  induction ls with
  | nil => rfl
  | cons l rest ih =>
    by_cases h : keyOf l = outKey
    · have hb : (keyOf l == outKey) = true := by simp [h]
      simp [scanBack, h, hb]
    · have hb : (keyOf l == outKey) = false := by simp [h]
      simp [scanBack, h, hb, ih]

/-- The backward scan over the reversed window computes exactly the value
of the last `out_time_ms` line of the window (or 0 when there is none). -/
theorem scanBack_reverse_eq (lines : List (List Char)) :
    scanBack lines.reverse = lastOutSpec lines := by
  rw [scanBack_eq_find, find_eq_filter_head, List.filter_reverse, List.head?_reverse]
  rfl

/-- C4: before the process is started the query returns 0; while running
it reads only a bounded (512-byte) trailing window of the report, returns
the value of the last `out_time_ms` line visible there, and returns 0 when
no such entry exists yet. -/
theorem progress_query_value (r : List Char) :
    progress { process := .notStarted, report := r } = .ok 0
    ∧ (tailChars 512 r).length ≤ 512
    ∧ progress { process := .running, report := r } = lastOutSpec (windowLines r)
    ∧ (outTimeLines (windowLines r) = [] →
        progress { process := .running, report := r } = .ok 0) := by
  refine ⟨rfl, ?_, ?_, ?_⟩
  · rw [tailChars, List.length_drop]; omega
  · exact scanBack_reverse_eq (windowLines r)
  · intro h
    rw [show progress { process := .running, report := r } = lastOutSpec (windowLines r)
      from scanBack_reverse_eq (windowLines r)]
    rw [lastOutSpec, h]
    rfl

/-- Witness for C4 at a concrete input: a running job whose window holds
report lines but no `out_time_ms` entry yet reports 0. -/
theorem progress_query_value_witness :
    progress { process := .running, report := "frame=1\nfps=0.0\n".toList } = .ok 0 :=
  (progress_query_value "frame=1\nfps=0.0\n".toList).2.2.2 (by decide)

/-- Concrete exited run state for the C3 counterexample. -/
def exitedState : RunState := { process := .exited 1, report := "x".toList }

/-- Counterexample for C3 as stated: the query performs no state
transition, so after the process exits the second query signals
`ProgressFinishedError` again — the error is not signalled exactly once. -/
theorem progress_finished_repeats :
    (progressQ exitedState).1 = .error .finished
    ∧ (progressQ (progressQ exitedState).2).1 = .error .finished :=
  ⟨rfl, rfl⟩

/-- Value extraction never produces the finished signal. -/
theorem lineValE_ne_finished (l : List Char) : lineValE l ≠ .error .finished := by
  unfold lineValE
  split
  · simp
  · split <;> simp

/-- The backward scan never produces the finished signal. -/
theorem scanBack_ne_finished : ∀ ls, scanBack ls ≠ .error .finished
  | [] => by simp [scanBack]
  | l :: rest => by
    by_cases h : keyOf l = outKey
    · simpa [scanBack, h] using lineValE_ne_finished l
    · simpa [scanBack, h] using scanBack_ne_finished rest

/-- C3 amended: the query signals `ProgressFinishedError` exactly when the
process has exited — on every query after exit, not only the first — and
it performs no state transition.  The exception constructor carries no
per-job data (the raise site passes no arguments); the coordinator reads
the diagnostic buffer from the process object when it handles the first
signal and removes the job from the active set. -/
theorem progress_finished_iff (st : RunState) :
    (progress st = .error .finished ↔ ∃ code, st.process = .exited code)
    ∧ (progressQ st).2 = st := by
  refine ⟨?_, rfl⟩
  cases hp : st.process with
  | notStarted => simp [progress, hp]
  | running =>
    simp only [progress, hp]
    constructor
    · intro h; exact absurd h (scanBack_ne_finished _)
    · rintro ⟨code, hc⟩; exact absurd hc (by simp)
  | exited code => simp [progress, hp]

/-- Report contents for the C6 counterexample, before the append. -/
def reportA : List Char := "out_time_ms=5\n".toList

/-- Report contents after an append of 512 bytes holding no new
`out_time_ms` entry. -/
def reportB : List Char := reportA ++ List.replicate 512 'f'

set_option maxRecDepth 40000 in
/-- Counterexample for C6 as stated: the report grows append-only and the
`out_time_ms` entries of the whole report stay `[5]` (trivially
monotone), yet successive queries return 5 then 0, because the 512-byte
trailing window has slid past the only entry. -/
theorem progress_not_monotone :
    progress { process := .running, report := reportA } = .ok 5
    ∧ reportB = reportA ++ List.replicate 512 'f'
    ∧ outEntries (splitOnChar '\n' reportB) = [5]
    ∧ progress { process := .running, report := reportB } = .ok 0
    ∧ ¬ ((5 : Int) ≤ 0) :=
  ⟨by decide, rfl, by decide, by decide, by decide⟩

/-- A line whose value extraction succeeds parses to that value. -/
theorem lineValE_ok_value {m : List Char} {v : Int} (h : lineValE m = .ok v) :
    lineValue? m = some v := by
  unfold lineValue?
  unfold lineValE at h
  cases hh : ((splitOnChar '=' m).drop 1).head? with
  | none => simp only [hh] at h; exact absurd h (by simp)
  | some w =>
    simp only [hh] at h ⊢
    cases hi : pyInt? w with
    | none => simp only [hi] at h; exact absurd h (by simp)
    | some n => simp only [hi] at h; cases h; rfl

/-- A successful running query whose window holds at least one
`out_time_ms` line returns a value drawn from the window's parsed
entries. -/
theorem progress_running_mem (r : List Char) (v : Int)
    (h : progress { process := .running, report := r } = .ok v)
    (hne : outTimeLines (windowLines r) ≠ []) :
    v ∈ outEntries (windowLines r) := by
  have hspec : lastOutSpec (windowLines r) = .ok v := by
    rw [← scanBack_reverse_eq]; exact h
  unfold lastOutSpec at hspec
  split at hspec
  · next hg => exact absurd (List.getLast?_eq_none_iff.mp hg) hne
  · next l hg =>
    exact List.mem_filterMap.mpr
      ⟨l, List.mem_of_getLast?_eq_some hg, lineValE_ok_value hspec⟩

/-- Concatenation of newline-terminated report lines: the shape in which
the external process streams the side-channel report. -/
def joinLines (ls : List (List Char)) : List Char :=
  ls.flatMap (fun l => l ++ ['\n'])

/-- The line has no proper suffix whose key parses as `out_time_ms`.  This
holds for every ffmpeg progress line — no key (frame, fps, bitrate,
out_time_us, out_time_ms, …) contains `out_time_ms` as a proper suffix —
and it rules out the 512-byte window cut fabricating a spurious entry out
of the middle of a line. -/
def noSpuriousKeyB (l : List Char) : Bool :=
  (List.range l.length).all (fun k => k == 0 || keyOf (l.drop k) != outKey)

/-- Under `noSpuriousKeyB`, a suffix of the line whose key is
`out_time_ms` must be the whole line. -/
theorem eq_of_suffix_key_match {l s : List Char} (h : noSpuriousKeyB l = true)
    (hs : s <:+ l) (hm : (keyOf s == outKey) = true) : s = l := by
  obtain ⟨p, rfl⟩ := hs
  cases p with
  | nil => simp
  | cons x p' =>
    exfalso
    cases s with
    | nil => exact absurd hm (by decide)
    | cons c s' =>
      unfold noSpuriousKeyB at h
      rw [List.all_eq_true] at h
      have hk : (p'.length + 1) ∈ List.range (x :: p' ++ c :: s').length := by
        rw [List.mem_range]
        simp [List.length_append]
      have hrange := h _ hk
      have hdrop : (x :: p' ++ c :: s').drop (p'.length + 1) = c :: s' := by
        rw [show x :: p' ++ c :: s' = (x :: p') ++ c :: s' from rfl,
          show p'.length + 1 = (x :: p').length from rfl]
        exact List.drop_left _ _
      rw [hdrop] at hrange
      simp at hrange
      exact hrange (by simpa using hm)

/-- Decomposing a suffix of `l ++ c :: rest`: it either lies within
`rest`, or it is a suffix of `l` followed by the whole `c :: rest`. -/
theorem suffix_append_cons (c : Char) :
    ∀ (l t rest : List Char), t <:+ (l ++ c :: rest) →
      t <:+ rest ∨ ∃ s, s <:+ l ∧ t = s ++ c :: rest
  | [], t, rest, h => by
    obtain ⟨p, hp⟩ := h
    cases p with
    | nil => exact Or.inr ⟨[], List.suffix_rfl, by simpa using hp⟩
    | cons x p' =>
      rw [List.nil_append] at hp
      rw [List.cons_append] at hp
      injection hp with _ hp'
      exact Or.inl ⟨p', hp'⟩
  | l0 :: l', t, rest, h => by
    obtain ⟨p, hp⟩ := h
    cases p with
    | nil => exact Or.inr ⟨l0 :: l', List.suffix_rfl, by simpa using hp⟩
    | cons x p' =>
      rw [List.cons_append] at hp
      rw [List.cons_append] at hp
      injection hp with _ hp'
      rcases suffix_append_cons c l' t rest ⟨p', hp'⟩ with h1 | ⟨s, hs, ht⟩
      · exact Or.inl h1
      · exact Or.inr ⟨s, hs.trans (List.suffix_cons l0 l'), ht⟩

/-- Splitting across the first separator occurrence. -/
theorem splitOnCharGo_append (sep : Char) :
    ∀ (s : List Char), sep ∉ s → ∀ (acc rest : List Char),
      splitOnCharGo sep acc (s ++ sep :: rest)
        = (acc.reverse ++ s) :: splitOnChar sep rest
  | [], _, acc, rest => by simp [splitOnCharGo, splitOnChar]
  | c :: s', hs, acc, rest => by
    have hc : ¬ c = sep := fun he => hs (he ▸ List.mem_cons_self c s')
    have hs' : sep ∉ s' := fun hm => hs (List.mem_cons_of_mem c hm)
    rw [List.cons_append]
    simp only [splitOnCharGo]
    rw [if_neg hc, splitOnCharGo_append sep s' hs' (c :: acc) rest]
    simp

/-- Splitting a line glued onto a separator and a remainder. -/
theorem splitOnChar_append_cons (sep : Char) (s rest : List Char) (hs : sep ∉ s) :
    splitOnChar sep (s ++ sep :: rest) = s :: splitOnChar sep rest := by
  rw [show splitOnChar sep (s ++ sep :: rest)
      = splitOnCharGo sep [] (s ++ sep :: rest) from rfl,
    splitOnCharGo_append sep s hs [] rest]
  simp

/-- Unfolding the line concatenation one line at a time. -/
theorem joinLines_cons (l : List Char) (L : List (List Char)) :
    joinLines (l :: L) = l ++ '\n' :: joinLines L := by
  simp [joinLines, List.flatMap_cons, List.append_assoc]

/-- Splitting inverts joining for newline-free lines (with the trailing
empty element from the final newline). -/
theorem splitOnChar_joinLines :
    ∀ (L : List (List Char)), (∀ l ∈ L, '\n' ∉ l) →
      splitOnChar '\n' (joinLines L) = L ++ [[]]
  | [], _ => rfl
  | l :: L', h => by
    rw [joinLines_cons,
      splitOnChar_append_cons '\n' l (joinLines L') (h l (List.mem_cons_self l L')),
      splitOnChar_joinLines L' (fun x hx => h x (List.mem_cons_of_mem l hx))]
    rfl

/-- Entries of a concatenation. -/
theorem outEntries_append (X Y : List (List Char)) :
    outEntries (X ++ Y) = outEntries X ++ outEntries Y := by
  unfold outEntries outTimeLines
  rw [List.filter_append, List.filterMap_append]

/-- The trailing empty line contributed by the final newline carries no
entry. -/
theorem outEntries_append_nil_line (X : List (List Char)) :
    outEntries (X ++ [[]]) = outEntries X := by
  rw [outEntries_append]
  have h : outEntries [([] : List Char)] = [] := by decide
  rw [h, List.append_nil]

/-- Dropping a leading line keeps the remaining entries a suffix. -/
theorem outEntries_cons_suffix (l : List Char) (L' : List (List Char)) :
    outEntries L' <:+ outEntries (l :: L') := by
  unfold outEntries outTimeLines
  rw [List.filter_cons]
  cases h : (keyOf l == outKey) with
  | false =>
    rw [if_neg (by simp)]
  | true =>
    rw [if_pos rfl, List.filterMap_cons]
    cases hv : lineValue? l with
    | none => simp only [hv]; exact List.suffix_rfl
    | some v => simp only [hv]; exact List.suffix_cons _ _

/-- Entries visible after cutting the report anywhere form a suffix of the
full report's entries: the lines after the cut are whole report lines, and
by `noSpuriousKeyB` the one possibly cut-open line either is whole or
matches no key. -/
theorem entries_split_suffix :
    ∀ (L : List (List Char)), (∀ l ∈ L, '\n' ∉ l) →
      (∀ l ∈ L, noSpuriousKeyB l = true) →
      ∀ t, t <:+ joinLines L →
        outEntries (splitOnChar '\n' t) <:+ outEntries L
  | [], _, _, t, ht => by
    have h0 : t = [] := by simpa [joinLines] using ht
    subst h0
    have h1 : outEntries (splitOnChar '\n' []) = [] := by decide
    rw [h1]
    exact List.nil_suffix
  | l :: L', hnl, hkey, t, ht => by
    rw [joinLines_cons] at ht
    rcases suffix_append_cons '\n' l t (joinLines L') ht with h1 | ⟨s, hs, rfl⟩
    · exact (entries_split_suffix L' (fun x hx => hnl x (List.mem_cons_of_mem l hx))
        (fun x hx => hkey x (List.mem_cons_of_mem l hx)) t h1).trans
        (outEntries_cons_suffix l L')
    · have hsnl : '\n' ∉ s := fun hm => hnl l (List.mem_cons_self l L') (hs.sublist.subset hm)
      rw [splitOnChar_append_cons '\n' s (joinLines L') hsnl,
        splitOnChar_joinLines L' (fun x hx => hnl x (List.mem_cons_of_mem l hx))]
      cases hm : (keyOf s == outKey) with
      | false =>
        have he : outEntries (s :: (L' ++ [[]])) = outEntries (L' ++ [[]]) := by
          unfold outEntries outTimeLines
          rw [List.filter_cons, if_neg (by simp [hm])]
        rw [he, outEntries_append_nil_line]
        exact outEntries_cons_suffix l L'
      | true =>
        have hsl : s = l := eq_of_suffix_key_match (hkey l (List.mem_cons_self l L')) hs hm
        subst hsl
        rw [show (s :: (L' ++ [[]])) = (s :: L') ++ [[]] from rfl,
          outEntries_append_nil_line]

/-- The last element survives extending a list on the left. -/
theorem getLast?_of_suffix {α : Type} {A B : List α} (h : A <:+ B) {v : α}
    (hv : A.getLast? = some v) : B.getLast? = some v := by
  obtain ⟨p, rfl⟩ := h
  have hA : A ≠ [] := by
    intro he
    rw [he] at hv
    exact absurd hv (by simp)
  rw [List.getLast?_append_of_ne_nil p hA]
  exact hv

/-- In a nondecreasing list, every element is at most the last one. -/
theorem le_getLast?_of_pairwise {l : List Int} (hp : List.Pairwise (· ≤ ·) l) :
    ∀ {x v : Int}, x ∈ l → l.getLast? = some v → x ≤ v := by
  induction l with
  | nil => intro x v hx _; exact absurd hx (List.not_mem_nil x)
  | cons a l' ih =>
    intro x v hx hv
    cases l' with
    | nil =>
      have hx' : x = a := by simpa using hx
      have hv' : a = v := by simpa using hv
      rw [hx', hv']
    | cons b l'' =>
      rw [List.getLast?_cons_cons] at hv
      rcases List.mem_cons.mp hx with rfl | hx'
      · exact (List.pairwise_cons.mp hp).1 v (List.mem_of_getLast?_eq_some hv)
      · exact ih (List.pairwise_cons.mp hp).2 hx' hv

/-- If the last element of a list maps to a value, that value is the last
element of the `filterMap`. -/
theorem filterMap_getLast?_some {α β : Type} (f : α → Option β) :
    ∀ {l : List α} {a : α} {b : β}, l.getLast? = some a → f a = some b →
      (l.filterMap f).getLast? = some b := by
  intro l
  induction l with
  | nil => intro a b h _; exact absurd h (by simp)
  | cons x l' ih =>
    intro a b hl hf
    cases l' with
    | nil =>
      have hx : x = a := by simpa using hl
      subst hx
      rw [List.filterMap_cons]
      simp only [hf]
      simp
    | cons y l'' =>
      rw [List.getLast?_cons_cons] at hl
      have htail := ih hl hf
      have hne : (y :: l'').filterMap f ≠ [] := by
        intro he
        rw [he] at htail
        exact absurd htail (by simp)
      rw [List.filterMap_cons]
      cases hfx : f x with
      | none => simp only [hfx]; exact htail
      | some cval =>
        simp only [hfx]
        rw [show (cval :: (y :: l'').filterMap f) = [cval] ++ (y :: l'').filterMap f from rfl,
          List.getLast?_append_of_ne_nil [cval] hne]
        exact htail

/-- A successful running query whose window holds at least one
`out_time_ms` line returns exactly the last parsed entry of its window. -/
theorem progress_ok_getLast (r : List Char) (v : Int)
    (h : progress { process := .running, report := r } = .ok v)
    (hne : outTimeLines (windowLines r) ≠ []) :
    (outEntries (windowLines r)).getLast? = some v := by
  have hspec : lastOutSpec (windowLines r) = .ok v := by
    rw [← scanBack_reverse_eq]; exact h
  unfold lastOutSpec at hspec
  split at hspec
  · next hg => exact absurd (List.getLast?_eq_none_iff.mp hg) hne
  · next m hg => exact filterMap_getLast?_some lineValue? hg (lineValE_ok_value hspec)

/-- C6 amended: within one run, for a report that is an append-only
sequence of newline-terminated `key=value` lines (`joinLines`, lines
newline-free) whose keys never hide `out_time_ms` as a proper suffix —
both true of the ffmpeg progress stream the claim speaks about — and whose
`out_time_ms` values are monotonically nondecreasing, the values returned
by successive progress queries are nondecreasing, provided each poll's
512-byte trailing window still contains an `out_time_ms` entry.  When the
window has slid past every entry the query returns 0, which can drop below
the previous value (see the counterexample). -/
theorem progress_monotone_append (L1 K : List (List Char)) (v1 v2 : Int)
    (hnl : ∀ l ∈ L1 ++ K, '\n' ∉ l)
    (hkey : ∀ l ∈ L1 ++ K, noSpuriousKeyB l = true)
    (hmono : List.Pairwise (· ≤ ·) (outEntries (L1 ++ K)))
    (hok1 : progress { process := .running, report := joinLines L1 } = .ok v1)
    (hok2 : progress { process := .running, report := joinLines (L1 ++ K) } = .ok v2)
    (hne1 : outTimeLines (windowLines (joinLines L1)) ≠ [])
    (hne2 : outTimeLines (windowLines (joinLines (L1 ++ K))) ≠ []) :
    v1 ≤ v2 := by
  have hA := progress_ok_getLast _ _ hok1 hne1
  have hB := progress_ok_getLast _ _ hok2 hne2
  have hsufA : outEntries (windowLines (joinLines L1)) <:+ outEntries L1 :=
    entries_split_suffix L1
      (fun x hx => hnl x (List.mem_append_left K hx))
      (fun x hx => hkey x (List.mem_append_left K hx))
      _ (List.drop_suffix _ _)
  have hsufB : outEntries (windowLines (joinLines (L1 ++ K))) <:+ outEntries (L1 ++ K) :=
    entries_split_suffix (L1 ++ K) hnl hkey _ (List.drop_suffix _ _)
  have h1 : (outEntries L1).getLast? = some v1 := getLast?_of_suffix hsufA hA
  have h2 : (outEntries (L1 ++ K)).getLast? = some v2 := getLast?_of_suffix hsufB hB
  have hmem : v1 ∈ outEntries (L1 ++ K) := by
    rw [outEntries_append]
    exact List.mem_append_left _ (List.mem_of_getLast?_eq_some h1)
  exact le_getLast?_of_pairwise hmono hmem h2

/-- Report lines before the append for the C6 witness: two monotone
entries, the older and smaller one still visible in the window. -/
def linesBefore : List (List Char) := ["out_time_ms=3".toList, "out_time_ms=5".toList]

/-- Lines appended by the second write for the C6 witness. -/
def linesAppended : List (List Char) := ["out_time_ms=9".toList]

/-- Witness for C6 (amended) at a concrete input: the report grows from
entries 3, 5 to entries 3, 5, 9; the first poll returns 5, the second 9,
and the theorem yields 5 ≤ 9 even though the smaller older entry 3 is
still visible in both windows. -/
theorem progress_monotone_append_witness : (5 : Int) ≤ 9 :=
  progress_monotone_append linesBefore linesAppended 5 9 (by decide) (by decide)
    (by decide) (by decide) (by decide) (by decide) (by decide)

/-- One batch job as the `convert` loop of `cli.py` sees it: the run
state of its container, the container's `microseconds` total, and the
diagnostic text `process.communicate()[1]` would return after an exit. -/
structure Job where
  st : RunState
  ms : Int
  diag : String
deriving DecidableEq, Repr

/-- One pass of the polling loop `for container in running:` in `convert`
(`cli.py`), returning the still-active list, the aggregate
`total_progress`, and the recorded diagnostic messages.  The Python loop
iterates by index while `running.remove(container)` shifts the list left,
so when a job signals `ProgressFinishedError` the job immediately after it
is skipped for the rest of that pass: it stays active but is neither
polled nor summed (this models `list.remove` under the loop's invariant
that the containers are pairwise distinct, which holds because they come
from distinct files).  A crash from a malformed report line is not caught
by the `except` clause and aborts the pass. -/
def pollPass : List Job → Except PExc (List Job × Int × List String)
  | [] => .ok ([], 0, [])
  | [j] =>
    match progress j.st with
    | .ok p => .ok ([j], p, [])
    | .error .finished => .ok ([], j.ms, [j.diag])
    | .error .crash => .error .crash
  | j :: k :: rest =>
    match progress j.st with
    | .ok p =>
      match pollPass (k :: rest) with
      | .ok (a, t, e) => .ok (j :: a, p + t, e)
      | .error x => .error x
    | .error .finished =>
      match pollPass rest with
      | .ok (a, t, e) => .ok (k :: a, j.ms + t, j.diag :: e)
      | .error x => .error x
    | .error .crash => .error .crash

/-- Failed job for the C5 evaluation: its process has exited. -/
def jobFailed : Job :=
  { st := { process := .exited 1, report := [] }, ms := 100, diag := "boom" }

/-- Healthy running job for the C5 evaluation, 7 microseconds in. -/
def jobRunning : Job :=
  { st := { process := .running, report := "out_time_ms=7\n".toList }, ms := 100, diag := "" }

/-- C5 evaluated at the failing input: polled alone, the running job
contributes its progress 7; but on the pass where the job before it
fails, the failed job is removed (contributing its full duration 100 and
its diagnostic text) while the running job — though still active — is
skipped entirely, so the pass total is 100 rather than 107.  The claim
says every other active job is still polled and summed on that same
poll. -/
theorem pollPass_skips_job_after_failure :
    pollPass [jobRunning] = .ok ([jobRunning], 7, [])
    ∧ pollPass [jobFailed, jobRunning] = .ok ([jobRunning], 100, ["boom"]) :=
  ⟨by decide, by decide⟩

/-- Overshooting job for the C9 counterexample: the report claims 999
microseconds although the container's total is 5 (the code never clamps
the parsed value). -/
def jobOvershoot : Job :=
  { st := { process := .running, report := "out_time_ms=999\n".toList }, ms := 5, diag := "" }

/-- Counterexample for C9 as stated: a report value beyond the container's
duration is summed unclamped, so the aggregate 999 exceeds the duration
sum 5. -/
theorem pollPass_aggregate_exceeds_durations :
    pollPass [jobOvershoot] = .ok ([jobOvershoot], 999, [])
    ∧ (List.map Job.ms [jobOvershoot]).sum = 5
    ∧ ¬ ((999 : Int) ≤ 5) :=
  ⟨by decide, by decide, by decide⟩

/-- Bounded-progress predicate for one job: whatever value a progress
query would currently return does not exceed the job's microsecond
total. -/
def progressWithin (j : Job) : Bool :=
  match progress j.st with
  | .ok v => decide (v ≤ j.ms)
  | .error _ => true

/-- C9 amended: on every pass, provided each job's reported progress is at
most its container's microsecond total (which the code never enforces —
see the counterexample), the aggregate is bounded by the sum of all
containers' microsecond totals: polled jobs contribute at most their
total, a failed job contributes exactly its total, and a skipped job
contributes nothing. -/
theorem pollPass_aggregate_bounded (jobs : List Job)
    (hjobs : ∀ j ∈ jobs, progressWithin j = true ∧ 0 ≤ j.ms) :
    ∀ a t e, pollPass jobs = .ok (a, t, e) → t ≤ (jobs.map Job.ms).sum := by
  revert hjobs
  induction jobs using pollPass.induct with
  | case1 =>
    intro _ a t e h
    cases h
    simp
  | case2 j p hp =>
    intro hjobs a t e h
    simp only [pollPass, hp] at h
    cases h
    have hw := (hjobs j (by simp)).1
    rw [progressWithin, hp] at hw
    simpa using hw
  | case3 j hp =>
    intro _ a t e h
    simp only [pollPass, hp] at h
    cases h
    simp
  | case4 j hp =>
    intro _ a t e h
    simp only [pollPass, hp] at h
    exact absurd h (by simp)
  | case5 j k rest p hp a' t' e' hr ih =>
    intro hjobs a t e h
    simp only [pollPass, hp, hr] at h
    cases h
    have hp_le : p ≤ j.ms := by
      have hw := (hjobs j (by simp)).1
      rw [progressWithin, hp] at hw
      simpa using hw
    have ht' : t' ≤ ((k :: rest).map Job.ms).sum :=
      ih (fun x hx => hjobs x (by simp [hx])) a' t' e' hr
    simp only [List.map_cons, List.sum_cons] at ht' ⊢
    omega
  | case6 j k rest p hp x hx ih =>
    intro _ a t e h
    simp only [pollPass, hp, hx] at h
    exact absurd h (by simp)
  | case7 j k rest hp a' t' e' hr ih =>
    intro hjobs a t e h
    simp only [pollPass, hp, hr] at h
    cases h
    have ht' : t' ≤ (rest.map Job.ms).sum :=
      ih (fun x hx => hjobs x (by simp [hx])) a' t' e' hr
    have hk : 0 ≤ k.ms := (hjobs k (by simp)).2
    simp only [List.map_cons, List.sum_cons]
    omega
  | case8 j k rest hp x hx ih =>
    intro _ a t e h
    simp only [pollPass, hp, hx] at h
    exact absurd h (by simp)
  | case9 j k rest hp =>
    intro _ a t e h
    simp only [pollPass, hp] at h
    exact absurd h (by simp)

/-- Job inside its duration bound for the C9 witness. -/
def jobWithin : Job :=
  { st := { process := .running, report := "out_time_ms=7\n".toList }, ms := 50, diag := "" }

/-- Witness for C9 (amended) at a concrete input: one in-bounds job polls
to 7, below its 50-microsecond total. -/
theorem pollPass_aggregate_bounded_witness : (7 : Int) ≤ 50 := by
  have h := pollPass_aggregate_bounded [jobWithin] (by decide) [jobWithin] 7 [] (by decide)
  have hs : (List.map Job.ms [jobWithin]).sum = 50 := by decide
  rw [hs] at h
  exact h

/-- The per-type output slot counters `stream_number` of
`Container.build_command` (`{'video': 0, 'audio': 0, 'subtitle': 0}`). -/
structure StreamCounters where
  video : Nat
  audio : Nat
  subtitle : Nat
deriving DecidableEq, Repr

/-- Counter lookup `stream_number[stream.type]`.  For a type other than
the three keys the Python dict raises `KeyError`; that cannot happen for a
selection that passed the setter's eligibility check, which is the only
way streams reach this loop, so the fallback branch is never exercised. -/
def StreamCounters.get (sc : StreamCounters) (t : String) : Nat :=
  if t = "video" then sc.video
  else if t = "audio" then sc.audio
  else sc.subtitle

/-- Counter bump `stream_number[stream.type] += 1` (same `KeyError` caveat
as `StreamCounters.get`). -/
def StreamCounters.inc (sc : StreamCounters) (t : String) : StreamCounters :=
  if t = "video" then { sc with video := sc.video + 1 }
  else if t = "audio" then { sc with audio := sc.audio + 1 }
  else { sc with subtitle := sc.subtitle + 1 }

/-- The `for stream in output_streams:` loop of `build_command`: emit each
stream's options at its current per-type counter, bumping the counter.
Only the emitted tokens matter to the command; the `option_summary`
side-effect of `build_options` (its second component) does not feed the
token list. -/
def optLoop (d : Defaults) : List Stream → StreamCounters → List String × StreamCounters
  | [], sc => ([], sc)
  | s :: rest, sc =>
    let o := (Stream.build_options d s (sc.get s.type)).1
    let r := optLoop d rest (sc.inc s.type)
    (o ++ r.1, r.2)

/-- The `for subtitle in self.subtitle_files:` options loop of
`build_command`: a subtitle codec slot option at the continuing subtitle
counter, then the file's fixed options. -/
def subLoop : List SubtitleFile → Nat → List String
  | [], _ => []
  | sub :: rest, n => ("-c:s:" ++ toString n) :: sub.options ++ subLoop rest (n + 1)

/-- Directory part of a POSIX path, modelling `os.path.dirname`: the part
before the last slash, with trailing slashes stripped unless the head is
all slashes. -/
def dirnameChars (cs : List Char) : List Char :=
  let after := cs.reverse.dropWhile (fun c => c != '/')
  if after.all (fun c => c = '/') then after.reverse
  else (after.dropWhile (fun c => c = '/')).reverse

/-- Joining a directory with a relative name, modelling `os.path.join` for
the paths at issue. -/
def posixJoin (a b : List Char) : List Char :=
  if a = [] then b
  else if b.head? = some '/' then b
  else if a.getLast? = some '/' then a ++ b
  else a ++ '/' :: b

/-- Output path token of the command:
`os.path.join(os.path.dirname(self.file_name), self.output_name)`. -/
def outToken (c : Container) : String :=
  String.mk (posixJoin (dirnameChars c.file_name.toList) c.output_name.toList)

/-- Embedding of `Container.build_command`.  `temp_name` stands for
`self.temp_file.name`, the private side-channel target. -/
def Container.build_command (d : Defaults) (c : Container) (temp_name : String) :
    List String :=
  [d.FFMPEG, "-nostdin", "-progress", temp_name, "-v", "error", "-y", "-i", c.file_name]
  ++ c.subtitle_files.flatMap (fun sub => ["-sub_charenc", sub.encoding, "-i", sub.file_name])
  ++ c._selected.flatMap (fun i => ["-map", "0:" ++ toString i])
  ++ (List.range c.subtitle_files.length).flatMap (fun idx => ["-map", toString (idx + 1) ++ ":0"])
  ++ (optLoop d (c.streams.filter (fun s => c._selected.contains s.index)) ⟨0, 0, 0⟩).1
  ++ subLoop c.subtitle_files
      (optLoop d (c.streams.filter (fun s => c._selected.contains s.index)) ⟨0, 0, 0⟩).2.subtitle
  ++ [outToken c]

/-- Number of streams of one type in a list (claim-side counting). -/
def countType (ty : String) (ss : List Stream) : Nat :=
  (ss.filter (fun s => s.type == ty)).length

/-- Claim-side option emission: each stream's options taken at the slot
equal to the number of same-type streams already emitted before it. -/
def withSlots (d : Defaults) : List Stream → List Stream → List String
  | _, [] => []
  | prev, s :: rest =>
    (Stream.build_options d s (countType s.type prev)).1 ++ withSlots d (prev ++ [s]) rest

/-- Claim-side reading of `output_streams`: the selected streams listed in
selection (ascending-index) order. -/
def selectedStreams (c : Container) : List Stream :=
  c._selected.filterMap (fun i => c.streams.find? (fun s => s.index == i))

/-- Sequence of slot numbers handed to the streams of one type, in
emission order. -/
def slotTrace (ty : String) : List Stream → List Stream → List Nat
  | _, [] => []
  | prev, s :: rest =>
    if s.type == ty then countType ty prev :: slotTrace ty (prev ++ [s]) rest
    else slotTrace ty (prev ++ [s]) rest

/-- Counters induced by the streams already emitted. -/
def countersOf (prev : List Stream) : StreamCounters :=
  ⟨countType "video" prev, countType "audio" prev, countType "subtitle" prev⟩

/-- Representation invariant under which the claim speaks: stream indexes
strictly increase along the stream list (probe order), the stored
selection strictly increases (setter invariant), and every selected index
names an output-eligible stream. -/
def WellFormed (c : Container) : Prop :=
  List.Pairwise (fun a b => a.index < b.index) c.streams
  ∧ List.Pairwise (· < ·) c._selected
  ∧ ∀ i ∈ c._selected, ∃ s ∈ c.streams, s.index = i ∧ s.type ∈ outputTypes

/-- Appending one stream bumps the type count by one exactly for its own
type. -/
theorem countType_append (ty : String) (prev : List Stream) (s : Stream) :
    countType ty (prev ++ [s]) = countType ty prev + (if s.type == ty then 1 else 0) := by
  unfold countType
  rw [List.filter_append, List.length_append]
  cases h : (s.type == ty) <;> simp [List.filter_cons, h]

/-- Counter lookup agrees with claim-side counting on eligible types. -/
theorem countersOf_get (prev : List Stream) (t : String) (ht : t ∈ outputTypes) :
    (countersOf prev).get t = countType t prev := by
  simp only [outputTypes, List.mem_cons, List.not_mem_nil, or_false] at ht
  rcases ht with rfl | rfl | rfl <;> simp [StreamCounters.get, countersOf]

/-- Counter bump agrees with claim-side counting on eligible types. -/
theorem countersOf_append (prev : List Stream) (s : Stream) (hs : s.type ∈ outputTypes) :
    countersOf (prev ++ [s]) = (countersOf prev).inc s.type := by
  simp only [outputTypes, List.mem_cons, List.not_mem_nil, or_false] at hs
  rcases hs with h | h | h <;>
    simp [countersOf, StreamCounters.inc, countType_append, h]

/-- The counter-threading option loop emits exactly the claim-side
options: each stream's options at the slot given by the number of earlier
same-type streams. -/
theorem optLoop_eq_withSlots (d : Defaults) (ss : List Stream) :
    ∀ prev, (∀ s ∈ ss, s.type ∈ outputTypes) →
      (optLoop d ss (countersOf prev)).1 = withSlots d prev ss := by
  induction ss with
  | nil => intro prev _; rfl
  | cons s rest ih =>
    intro prev h
    have hs : s.type ∈ outputTypes := h s (by simp)
    simp only [optLoop, withSlots]
    rw [countersOf_get prev s.type hs, ← countersOf_append prev s hs,
      ih (prev ++ [s]) (fun x hx => h x (by simp [hx]))]

/-- Final counters of the option loop count the emitted streams by
type. -/
theorem optLoop_counters (d : Defaults) (ss : List Stream) :
    ∀ prev, (∀ s ∈ ss, s.type ∈ outputTypes) →
      (optLoop d ss (countersOf prev)).2 = countersOf (prev ++ ss) := by
  induction ss with
  | nil => intro prev _; simp [optLoop]
  | cons s rest ih =>
    intro prev h
    simp only [optLoop]
    rw [← countersOf_append prev s (h s (by simp)),
      ih (prev ++ [s]) (fun x hx => h x (by simp [hx])), List.append_assoc,
      List.singleton_append]

/-- Strictly increasing indexes are unique identifiers within the
stream list. -/
theorem index_inj {ss : List Stream}
    (h : List.Pairwise (fun a b => a.index < b.index) ss) :
    ∀ {s s'}, s ∈ ss → s' ∈ ss → s.index = s'.index → s = s' := by
  intro s s' hs hs' he
  have hnd : (ss.map Stream.index).Nodup :=
    List.pairwise_map.mpr (h.imp fun hab => Nat.ne_of_lt hab)
  exact List.inj_on_of_nodup_map hnd hs hs' he

/-- Streams of the claim-side selection list come from the container and
are selected. -/
theorem selectedStreams_mem {c : Container} {s : Stream}
    (h : s ∈ selectedStreams c) : s ∈ c.streams ∧ s.index ∈ c._selected := by
  obtain ⟨i, hi, hf⟩ := List.mem_filterMap.mp h
  have hmem := List.mem_of_find?_eq_some hf
  have hidx : s.index = i := by simpa using List.find?_some hf
  exact ⟨hmem, by rw [hidx]; exact hi⟩

/-- Under the representation invariant, every claim-side selected stream
has an output-eligible type. -/
theorem selectedStreams_eligible (c : Container) (h : WellFormed c) :
    ∀ s ∈ selectedStreams c, s.type ∈ outputTypes := by
  intro s hs
  obtain ⟨hmem, hsel⟩ := selectedStreams_mem hs
  obtain ⟨s', hs'mem, hs'idx, h'elig⟩ := h.2.2 s.index hsel
  rw [show s = s' from index_inj h.1 hmem hs'mem (by rw [hs'idx])]
  exact h'elig

/-- Alignment of the code's `output_streams` (stream-order filter) with
the claim's selection-order lookup: under strictly increasing stream
indexes and a strictly increasing selection drawn from them, both produce
the same list. -/
theorem filter_contains_eq_filterMap (ss : List Stream) :
    ∀ sel : List Nat,
      List.Pairwise (fun a b => a.index < b.index) ss →
      List.Pairwise (· < ·) sel →
      (∀ i ∈ sel, i ∈ ss.map Stream.index) →
      ss.filter (fun s => sel.contains s.index)
        = sel.filterMap (fun i => ss.find? (fun s => s.index == i)) := by
  induction ss with
  | nil =>
    intro sel _ _ hval
    have hnil : sel = [] := by
      cases sel with
      | nil => rfl
      | cons i l => exact absurd (hval i (by simp)) (by simp)
    rw [hnil]; rfl
  | cons s rest ih =>
    intro sel hstr hsel hval
    have hrestgt : ∀ x ∈ rest, s.index < x.index := (List.pairwise_cons.mp hstr).1
    by_cases hmem : s.index ∈ sel
    · obtain ⟨selT, rfl⟩ : ∃ selT, sel = s.index :: selT := by
        cases sel with
        | nil => exact absurd hmem (List.not_mem_nil _)
        | cons a selT =>
          refine ⟨selT, ?_⟩
          rcases List.mem_cons.mp hmem with h | h
          · rw [h]
          · have ha := hval a (by simp)
            simp only [List.map_cons, List.mem_cons] at ha
            rcases ha with ha | ha
            · rw [ha]
            · exfalso
              have hlt : a < s.index := (List.pairwise_cons.mp hsel).1 s.index h
              obtain ⟨x, hx, hxi⟩ := List.mem_map.mp ha
              have := hrestgt x hx
              omega
      have hT : ∀ j ∈ selT, j ∈ rest.map Stream.index := by
        intro j hj
        have hlt : s.index < j := (List.pairwise_cons.mp hsel).1 j hj
        have hj' := hval j (by simp [hj])
        simp only [List.map_cons, List.mem_cons] at hj'
        rcases hj' with h | h
        · omega
        · exact h
      have hfc : rest.filter (fun x => (s.index :: selT).contains x.index)
          = rest.filter (fun x => selT.contains x.index) :=
        List.filter_congr (fun x hx => by
          have hgt := hrestgt x hx
          have hne : (x.index == s.index) = false := by simpa using Nat.ne_of_gt hgt
          rw [List.contains_cons, hne, Bool.false_or])
      have hmc : selT.filterMap (fun i => (s :: rest).find? (fun st => st.index == i))
          = selT.filterMap (fun i => rest.find? (fun st => st.index == i)) :=
        List.filterMap_congr (fun j hj => by
          have hlt : s.index < j := (List.pairwise_cons.mp hsel).1 j hj
          rw [List.find?_cons_of_neg _ (by simpa using Nat.ne_of_lt hlt)])
      rw [List.filter_cons_of_pos (by simp),
        List.filterMap_cons_some (by rw [List.find?_cons_of_pos _ (by simp)]),
        hfc, hmc,
        ih selT (List.pairwise_cons.mp hstr).2 (List.pairwise_cons.mp hsel).2 hT]
    · have hval' : ∀ i ∈ sel, i ∈ rest.map Stream.index := by
        intro i hi
        have hi' := hval i hi
        simp only [List.map_cons, List.mem_cons] at hi'
        rcases hi' with h | h
        · exact absurd (h ▸ hi) hmem
        · exact h
      have hmc : sel.filterMap (fun i => (s :: rest).find? (fun st => st.index == i))
          = sel.filterMap (fun i => rest.find? (fun st => st.index == i)) :=
        List.filterMap_congr (fun j hj => by
          have hne : s.index ≠ j := fun he => hmem (he ▸ hj)
          rw [List.find?_cons_of_neg _ (by simpa using hne)])
      rw [List.filter_cons_of_neg (by simpa using hmem), hmc,
        ih sel (List.pairwise_cons.mp hstr).2 hsel hval']

/-- Slot numbers handed to the streams of one type are consecutive,
starting from the count of that type already emitted. -/
theorem slotTrace_shift (ty : String) (ss : List Stream) :
    ∀ prev, slotTrace ty prev ss
      = (List.range (countType ty ss)).map (fun k => countType ty prev + k) := by
  induction ss with
  | nil => intro prev; simp [slotTrace, countType]
  | cons s rest ih =>
    intro prev
    cases h : (s.type == ty) with
    | true =>
      have hc1 : countType ty (s :: rest) = countType ty rest + 1 := by
        unfold countType; simp [List.filter_cons, h]
      have happ : countType ty (prev ++ [s]) = countType ty prev + 1 := by
        rw [countType_append, h, if_pos rfl]
      rw [show slotTrace ty prev (s :: rest)
          = countType ty prev :: slotTrace ty (prev ++ [s]) rest from by
        simp only [slotTrace]; rw [if_pos h]]
      simp only [ih (prev ++ [s]), happ, hc1, List.range_succ_eq_map, List.map_cons,
        List.map_map, Nat.add_zero]
      refine congrArg _ ?_
      apply List.map_congr_left
      intro k _
      simp only [Function.comp_apply]
      omega
    | false =>
      have hc0 : countType ty (s :: rest) = countType ty rest := by
        unfold countType; simp [List.filter_cons, h]
      have happ : countType ty (prev ++ [s]) = countType ty prev := by
        rw [countType_append, h, if_neg (by simp), Nat.add_zero]
      rw [show slotTrace ty prev (s :: rest) = slotTrace ty (prev ++ [s]) rest from by
        simp only [slotTrace]; rw [if_neg (by simp [h])]]
      simp only [ih (prev ++ [s]), happ, hc0]

/-- Reindexing a zip with successors shifts the base offset. -/
theorem zip_succ_flatMap (g : Nat → SubtitleFile → List String) :
    ∀ (rest : List SubtitleFile) (idx : List Nat) (n : Nat),
      ((rest.zip (idx.map Nat.succ)).flatMap (fun p => g (n + p.2) p.1))
        = ((rest.zip idx).flatMap (fun p => g ((n + 1) + p.2) p.1))
  | [], _, _ => by simp
  | _ :: _, [], _ => by simp
  | r :: rs, i :: is, n => by
    simp only [List.map_cons, List.zip_cons_cons, List.flatMap_cons]
    rw [zip_succ_flatMap g rs is n]
    have harith : n + Nat.succ i = (n + 1) + i := by omega
    rw [harith]

/-- The subtitle options loop is the claim-side enumeration: the k-th
attached subtitle file gets slot `n + k` for the continuing counter
`n`. -/
theorem subLoop_eq_zip :
    ∀ (subs : List SubtitleFile) (n : Nat),
      subLoop subs n
        = (subs.zip (List.range subs.length)).flatMap
            (fun p => ("-c:s:" ++ toString (n + p.2)) :: p.1.options)
  | [], _ => rfl
  | sub :: rest, n => by
    simp only [subLoop, List.length_cons, List.range_succ_eq_map, List.zip_cons_cons,
      List.flatMap_cons]
    rw [zip_succ_flatMap (fun m s => ("-c:s:" ++ toString m) :: s.options) rest
      (List.range rest.length) n]
    rw [← subLoop_eq_zip rest (n + 1)]
    simp

/-- C1: under the representation invariant (streams in strictly ascending
index order, selection stored strictly ascending with every index naming
an output-eligible stream), the command contains, after the fixed
invocation prefix and the subtitle input declarations, exactly one
`-map 0:i` pair per selected index in ascending order, one subtitle
mapping per attached file, then — in that same ascending selection
order — each selected stream's codec-slot option and `build_options`
output at the slot equal to the number of earlier same-type selected
streams (independent per-type counters from 0), then the subtitle slot
options on the continuing subtitle counter, then the output path; and the
slots handed to the streams of any one type form the contiguous sequence
0, 1, … in mapping order. -/
theorem build_command_spec (d : Defaults) (c : Container) (temp_name : String)
    (h : WellFormed c) :
    c.build_command d temp_name
      = [d.FFMPEG, "-nostdin", "-progress", temp_name, "-v", "error", "-y", "-i", c.file_name]
        ++ c.subtitle_files.flatMap (fun sub => ["-sub_charenc", sub.encoding, "-i", sub.file_name])
        ++ c._selected.flatMap (fun i => ["-map", "0:" ++ toString i])
        ++ (List.range c.subtitle_files.length).flatMap
            (fun idx => ["-map", toString (idx + 1) ++ ":0"])
        ++ withSlots d [] (selectedStreams c)
        ++ (c.subtitle_files.zip (List.range c.subtitle_files.length)).flatMap
            (fun p => ("-c:s:" ++ toString (countType "subtitle" (selectedStreams c) + p.2))
              :: p.1.options)
        ++ [outToken c]
    ∧ ∀ ty, slotTrace ty [] (selectedStreams c) = List.range (countType ty (selectedStreams c)) := by
  obtain ⟨hstr, hsel, hval⟩ := h
  have hvalmap : ∀ i ∈ c._selected, i ∈ c.streams.map Stream.index := by
    intro i hi
    obtain ⟨s, hs, hidx, _⟩ := hval i hi
    exact List.mem_map.mpr ⟨s, hs, hidx⟩
  have hfilter : c.streams.filter (fun s => c._selected.contains s.index) = selectedStreams c :=
    filter_contains_eq_filterMap c.streams c._selected hstr hsel hvalmap
  have helig : ∀ s ∈ selectedStreams c, s.type ∈ outputTypes :=
    selectedStreams_eligible c ⟨hstr, hsel, hval⟩
  constructor
  · unfold Container.build_command
    rw [hfilter]
    have h1 : (optLoop d (selectedStreams c) ⟨0, 0, 0⟩).1 = withSlots d [] (selectedStreams c) :=
      optLoop_eq_withSlots d (selectedStreams c) [] helig
    have h2 : (optLoop d (selectedStreams c) ⟨0, 0, 0⟩).2.subtitle
        = countType "subtitle" (selectedStreams c) := by
      rw [show (⟨0, 0, 0⟩ : StreamCounters) = countersOf [] from rfl,
        optLoop_counters d (selectedStreams c) [] helig]
      rfl
    rw [h1, h2, subLoop_eq_zip]
  · intro ty
    rw [slotTrace_shift ty (selectedStreams c) []]
    have h0 : countType ty ([] : List Stream) = 0 := rfl
    simp [h0]

/-- Concrete container for the C1 witness: a copyable video stream, an
audio stream needing transcoding, a subtitle stream needing transcoding,
all selected, plus one attached subtitle file. -/
def commandSampleContainer : Container :=
  { file_name := "dir/movie.mkv", duration := 120,
    streams :=
      [Stream.make 0 "video" "h264" none none { bitrate := none },
       Stream.make 1 "audio" "mp3" none none { bitrate := some 128 },
       Stream.make 2 "subtitle" "ssa" none none { bitrate := none }],
    subtitle_files := [SubtitleFile.make sampleDefaults "subs.srt" "utf-8"],
    _selected := [0, 1, 2],
    output_name := "movie.mp4", microseconds := 120000000 }

/-- Witness for C1 at a concrete input: the full command token list, with
per-type slots video 0, audio 0, subtitle 0 and the attached subtitle file
continuing the subtitle counter at slot 1. -/
theorem build_command_spec_witness :
    commandSampleContainer.build_command sampleDefaults "tmp"
      = ["ffmpeg", "-nostdin", "-progress", "tmp", "-v", "error", "-y", "-i", "dir/movie.mkv",
         "-sub_charenc", "utf-8", "-i", "subs.srt", "-map", "0:0", "-map", "0:1", "-map", "0:2",
         "-map", "1:0", "-c:v:0", "copy", "-c:a:0", "aac", "-b:a:0", "128k",
         "-c:s:0", "mov_text", "-c:s:1", "mov_text", "dir/movie.mp4"]
    ∧ slotTrace "subtitle" [] (selectedStreams commandSampleContainer) = List.range 1 := by
  have h := build_command_spec sampleDefaults commandSampleContainer "tmp"
    ⟨by decide, by decide, by decide⟩
  constructor
  · rw [h.1]; decide
  · rw [h.2 "subtitle"]; decide

end Filmalize
